import Mathlib

/-!
# Verification of `heap_utils` (header-only C++ binary-heap helpers)

This file models `include/heap_utils/heap_utils.hpp`.  The header's own code is
a set of thin wrappers around the C++ standard library heap algorithms
(`std::make_heap`, `std::push_heap`, `std::pop_heap`, `std::is_heap`); those
algorithms are modelled here by the classical binary-heap procedures over a
`List α` (the contents of the `std::vector`), matching the standard's
specification of each algorithm:

* `std::push_heap`  — sift the last element up along the parent chain
  (`siftUp`);
* `std::pop_heap`   — swap the first and last elements, then sift the new
  first element down within the shrunken extent (`siftDown`);
* `std::make_heap`  — establish the heap property over the whole range; the
  standard specifies only the postcondition (the range becomes a heap that is
  a permutation of its elements), and we model it by the incremental
  `push_heap` construction (Williams' original conforming implementation);
* `std::is_heap`    — check `¬comp(parent, child)` for every parent/child
  pair.

Throwing functions (`heap_top`, `heap_pop`) are modelled with `Except String`;
`heap_pop` additionally returns the resulting vector contents, so that the
"no mutation on the failure path" behaviour is visible in the model.
Out-of-range accesses never occur on the paths the library takes; positions
are read through `List.getElem?` and compared with `optComp`, which is the
comparator whenever both positions exist.
-/

namespace heap_utils

variable {α : Type}

/-- Comparator lifted to optional values: `comp` applied to the contents when
both positions exist, `false` otherwise (the algorithms below only ever
compare in-bounds positions). -/
def optComp (comp : α → α → Bool) : Option α → Option α → Bool
  | some x, some y => comp x y
  | _, _ => false

/-- Exchange the elements at positions `i` and `j` (`std::swap` on two
in-range positions; the identity if either index is out of range). -/
def lswap (l : List α) (i j : Nat) : List α :=
  match l[i]?, l[j]? with
  | some x, some y => (l.set i y).set j x
  | _, _ => l

/-- Sift the element at position `i` up along its parent chain, swapping while
the parent orders before it: the restoring pass of `std::push_heap`. -/
def siftUp (comp : α → α → Bool) (l : List α) (i : Nat) : List α :=
  if i = 0 then l
  else if optComp comp l[(i - 1) / 2]? l[i]? then
    siftUp comp (lswap l i ((i - 1) / 2)) ((i - 1) / 2)
  else l
termination_by i
decreasing_by omega

/-- The child of position `i` to compare against during a sift-down over the
extent `[0, m)`: the second child when it exists and the first child orders
before it, the first child otherwise. -/
def pickChild (comp : α → α → Bool) (l : List α) (i m : Nat) : Nat :=
  if 2 * i + 2 < m && optComp comp l[2 * i + 1]? l[2 * i + 2]? then
    2 * i + 2
  else 2 * i + 1

/-- Sift the element at position `i` down within the extent `[0, m)`,
repeatedly swapping with the child that the other child does not order after:
the restoring pass of `std::pop_heap`. -/
def siftDown (comp : α → α → Bool) (l : List α) (i m : Nat) : List α :=
  if _h : 2 * i + 1 < m then
    if optComp comp l[i]? l[pickChild comp l i m]? then
      siftDown comp (lswap l i (pickChild comp l i m)) (pickChild comp l i m) m
    else l
  else l
termination_by m - i
decreasing_by
  unfold pickChild
  split <;> omega

/-- `heap_utils::is_heap` (via `std::is_heap`): every non-root position is not
ordered after its parent by the comparator. -/
def is_heap (comp : α → α → Bool) (l : List α) : Bool :=
  (List.range l.length).all fun j =>
    j == 0 || !optComp comp l[(j - 1) / 2]? l[j]?

/-- `heap_utils::heap_push`: append the value, then restore the heap property
(`std::push_heap`). -/
def heap_push (comp : α → α → Bool) (l : List α) (v : α) : List α :=
  siftUp comp (l ++ [v]) l.length

/-- `heap_utils::heapify` (via `std::make_heap`): make the whole range a heap.
Modelled by the incremental `push_heap` construction, one conforming
implementation of `std::make_heap`.  The standard fixes only the
postcondition — the range becomes a heap that is a permutation of its
elements — so the claims below use this definition only through that
contract (heap property, permutation, and the value sequences those force);
no claim relies on this model's exact element placement.  For
implementation-dependent questions about element placement, libstdc++'s
implementation is modelled separately as `gcc_make_heap`. -/
def heapify (comp : α → α → Bool) (l : List α) : List α :=
  l.foldl (heap_push comp) []

/-- `heap_utils::heap_top`: the first element, or the empty-heap error. -/
def heap_top (l : List α) : Except String α :=
  match l with
  | [] => .error "heap_utils: heap_top() on empty heap"
  | x :: _ => .ok x

/-- `heap_utils::heap_pop`: on an empty vector, the empty-heap error with the
vector untouched; otherwise `std::pop_heap` (swap first and last, sift down
over the shrunken extent) followed by removing and returning the last
element.  The pair is (returned value or error, vector contents after the
call). -/
def heap_pop (comp : α → α → Bool) (l : List α) : Except String α × List α :=
  match l with
  | [] => (.error "heap_utils: heap_pop() on empty heap", [])
  | x :: xs =>
    let l2 := siftDown comp (lswap (x :: xs) 0 xs.length) 0 xs.length
    (.ok (l2.getLastD x), l2.dropLast)

/-- The extraction loop of `heap_utils::top_k`: pop `k` times, collecting the
popped values in order; a pop failure propagates (as the C++ exception
would), together with the vector contents at that point. -/
def popLoop (comp : α → α → Bool) : Nat → List α → Except String (List α) × List α
  | 0, l => (.ok [], l)
  | k + 1, l =>
    match heap_pop comp l with
    | (.error e, l1) => (.error e, l1)
    | (.ok x, l1) =>
      match popLoop comp k l1 with
      | (.error e, l2) => (.error e, l2)
      | (.ok out, l2) => (.ok (x :: out), l2)

/-- `heap_utils::top_k`: empty result for `k == 0` or empty input; otherwise
heapify a copy and pop `min(k, n)` times, returning the values in pop
order. -/
def top_k (comp : α → α → Bool) (data : List α) (k : Nat) :
    Except String (List α) :=
  if k = 0 || data.isEmpty then .ok []
  else
    let h := heapify comp data
    let n := h.length
    let kk := if k > n then n else k
    (popLoop comp kk h).1

/-- The default comparator `std::less<>` on an ordered type. -/
def ltc [LinearOrder α] : α → α → Bool := fun a b => decide (a < b)

/-- The inverted comparator `std::greater<>` on an ordered type. -/
def gtc [LinearOrder α] : α → α → Bool := fun a b => decide (b < a)

/-- `heap_utils::largest_k`: `top_k` with `std::less<>`. -/
def largest_k [LinearOrder α] (data : List α) (k : Nat) :
    Except String (List α) :=
  top_k ltc data k

/-- `heap_utils::smallest_k`: `top_k` with `std::greater<>`. -/
def smallest_k [LinearOrder α] (data : List α) (k : Nat) :
    Except String (List α) :=
  top_k gtc data k

/-- The caller's view of a call to `top_k`: the parameter
`std::vector<T> data` is received by value, so the callee works on an
independent copy and the caller's collection after the call is the collection
it held before.  The pair is (result of the call, caller's collection after
the call). -/
def top_k_call (comp : α → α → Bool) (caller : List α) (k : Nat) :
    Except String (List α) × List α :=
  (top_k comp caller k, caller)

/-- A reference full sort of a collection, best-to-worst for the default
comparator (descending): the specification's independent description of what
draining a default-comparator heap must produce. -/
def ref_sort_desc [LinearOrder α] (l : List α) : List α :=
  @List.insertionSort α (fun a b => b ≤ a)
    (fun a b => inferInstanceAs (Decidable (b ≤ a))) l

/-- A reference full sort, worst-to-best for the default comparator
(ascending): what draining an inverted-comparator heap must produce. -/
def ref_sort_asc [LinearOrder α] (l : List α) : List α :=
  @List.insertionSort α (fun a b => a ≤ b)
    (fun a b => inferInstanceAs (Decidable (a ≤ b))) l

/-- A valid comparator in the sense the library requires of `Compare`
(a strict weak ordering, §3 of the design): asymmetric, and with transitive
complement. -/
def ValidComp (comp : α → α → Bool) : Prop :=
  (∀ a b, comp a b = true → comp b a = false) ∧
  (∀ a b c, comp a b = false → comp b c = false → comp a c = false)

/-- The heap edge relation at positions `p` (parent) and `c` (child): the
parent is not ordered before the child (trivially true out of range). -/
def edge_ok (comp : α → α → Bool) (l : List α) (p c : Nat) : Prop :=
  optComp comp l[p]? l[c]? = false

/-- The heap property over the extent `[0, m)`. -/
def heap_upto (comp : α → α → Bool) (l : List α) (m : Nat) : Prop :=
  ∀ j, 0 < j → j < m → edge_ok comp l ((j - 1) / 2) j

/-- The heap property over the whole list. -/
def heap_prop (comp : α → α → Bool) (l : List α) : Prop :=
  ∀ j, 0 < j → edge_ok comp l ((j - 1) / 2) j

/-- Precondition of `siftUp` at hole `i`: every parent edge holds except the
one into `i`, and the children of `i` are covered by the parent of `i`
directly. -/
def sift_up_pre (comp : α → α → Bool) (l : List α) (i : Nat) : Prop :=
  (∀ j, 0 < j → j ≠ i → edge_ok comp l ((j - 1) / 2) j) ∧
  (∀ j, (j - 1) / 2 = i → 0 < i → edge_ok comp l ((i - 1) / 2) j)

/-- Precondition of `siftDown` at hole `i` over extent `[0, m)`: every parent
edge within the extent holds except those out of `i`, and the children of `i`
are covered by the parent of `i` directly. -/
def sift_down_pre (comp : α → α → Bool) (l : List α) (i m : Nat) : Prop :=
  (∀ j, 0 < j → j < m → (j - 1) / 2 ≠ i → edge_ok comp l ((j - 1) / 2) j) ∧
  (∀ j, j < m → (j - 1) / 2 = i → 0 < i → edge_ok comp l ((i - 1) / 2) j)

/-! ## libstdc++'s `std::make_heap`

`heapify` above is one conforming implementation of `std::make_heap`; the
claims rely on it only through the contract (the result is a heap that is a
permutation of the range, plus the value sequences those two facts force).
Whether a *second* `make_heap` call moves elements is, by contrast,
implementation-dependent, so for that question we also model the mainstream
libstdc++ implementation (`std::__make_heap` / `std::__adjust_heap` /
`std::__push_heap` of bits/stl_heap.h): for each parent position from
`(len-2)/2` down to `0`, save the value, sink the hole along the
larger-child path all the way to a leaf (with a special step for the final
parent of an even-length range), then sift the saved value back up with a
strict comparison.  The loops are given as structural recursion on an
explicit bound: the hole index strictly increases (respectively strictly
decreases) and is bounded by the range length, so a bound of `len`
(respectively `hole + 1`) is never exhausted. -/

/-- The child `__adjust_heap` descends into from hole-trail position `sc`:
the right child `2*(sc+1)`, or the left child when the right child orders
before it. -/
def bounce_pick (comp : α → α → Bool) (l : List α) (sc : Nat) : Nat :=
  if optComp comp l[2 * (sc + 1)]? l[2 * (sc + 1) - 1]? then 2 * (sc + 1) - 1
  else 2 * (sc + 1)

/-- The descent loop of `__adjust_heap`: while `sc < (len - 1) / 2`, move the
chosen child into the hole and descend.  Returns the range and the final
hole index (`holeIndex` and `secondChild` coincide throughout). -/
def adjust_loop (comp : α → α → Bool) :
    Nat → List α → Nat → Nat → Nat → List α × Nat
  | 0, l, hole, _, _ => (l, hole)
  | bound + 1, l, hole, sc, len =>
    if sc < (len - 1) / 2 then
      match l[bounce_pick comp l sc]? with
      | some v =>
        adjust_loop comp bound (l.set hole v) (bounce_pick comp l sc)
          (bounce_pick comp l sc) len
      | none => (l, hole)
    else (l, hole)

/-- The even-length tail step of `__adjust_heap`: when the hole stopped at
the last parent of an even-length range, move that parent's single child up
and put the hole on the child. -/
def adjust_tail (l : List α) (sc len : Nat) : List α × Nat :=
  if len % 2 = 0 ∧ sc = (len - 2) / 2 then
    match l[2 * (sc + 1) - 1]? with
    | some v => (l.set sc v, 2 * (sc + 1) - 1)
    | none => (l, sc)
  else (l, sc)

/-- `std::__push_heap`: while the hole is below `top` and the parent orders
before the saved value, move the parent down; finally store the value in the
hole. -/
def gcc_push_heap (comp : α → α → Bool) :
    Nat → List α → Nat → Nat → α → List α
  | 0, l, hole, _, value => l.set hole value
  | bound + 1, l, hole, top, value =>
    if top < hole then
      match l[(hole - 1) / 2]? with
      | some p =>
        if comp p value then
          gcc_push_heap comp bound (l.set hole p) ((hole - 1) / 2) top value
        else l.set hole value
      | none => l.set hole value
    else l.set hole value

/-- `std::__adjust_heap`: sink the hole at `hole` to a leaf of the extent
`[0, len)`, then sift `value` back up to (at most) `hole`. -/
def gcc_adjust_heap (comp : α → α → Bool) (l : List α) (hole len : Nat)
    (value : α) : List α :=
  match adjust_loop comp len l hole hole len with
  | (l1, h1) =>
    match adjust_tail l1 h1 len with
    | (l2, h2) => gcc_push_heap comp (h2 + 1) l2 h2 hole value

/-- The driver loop of `std::__make_heap`: adjust each parent position from
`p` down to `0`. -/
def gcc_make_heap_iter (comp : α → α → Bool) (len : Nat) :
    Nat → List α → List α
  | 0, l =>
    match l[(0 : Nat)]? with
    | some v => gcc_adjust_heap comp l 0 len v
    | none => l
  | p + 1, l =>
    match l[p + 1]? with
    | some v => gcc_make_heap_iter comp len p (gcc_adjust_heap comp l (p + 1) len v)
    | none => l

/-- libstdc++'s `std::make_heap`: the identity on ranges shorter than two,
otherwise the driver loop from parent `(len - 2) / 2`. -/
def gcc_make_heap (comp : α → α → Bool) (l : List α) : List α :=
  if l.length < 2 then l
  else gcc_make_heap_iter comp l.length ((l.length - 2) / 2) l

/-- A valid strict-weak-order comparator on pairs of integers that compares
only the first components, so tied elements are distinguishable through
their second components. -/
def pairComp : Int × Int → Int × Int → Bool :=
  fun p q => decide (p.1 < q.1)

/-! ## Basic lemmas about `optComp` and `lswap` -/

theorem optComp_some {comp : α → α → Bool} {x y : α} :
    optComp comp (some x) (some y) = comp x y := rfl

theorem optComp_none_left {comp : α → α → Bool} {o : Option α} :
    optComp comp none o = false := by cases o <;> rfl

theorem optComp_none_right {comp : α → α → Bool} {o : Option α} :
    optComp comp o none = false := by cases o <;> rfl

theorem length_lswap (l : List α) (i j : Nat) :
    (lswap l i j).length = l.length := by
  unfold lswap
  cases hi : l[i]? <;> cases hj : l[j]? <;> simp

theorem getElem?_lswap {l : List α} {i j : Nat}
    (hi : i < l.length) (hj : j < l.length) (k : Nat) :
    (lswap l i j)[k]? = if k = j then l[i]? else if k = i then l[j]? else l[k]? := by
  unfold lswap
  rw [List.getElem?_eq_getElem hi, List.getElem?_eq_getElem hj]
  by_cases hkj : k = j
  · subst hkj
    rw [if_pos rfl, List.getElem?_set_self (by simpa using hj)]
  · rw [if_neg hkj, List.getElem?_set_ne (fun h => hkj h.symm)]
    by_cases hki : k = i
    · subst hki
      rw [if_pos rfl, List.getElem?_set_self (by simpa using hi)]
    · rw [if_neg hki, List.getElem?_set_ne (fun h => hki h.symm)]

theorem count_lswap [BEq α] [LawfulBEq α] (b : α) (l : List α) (i j : Nat)
    (hi : i < l.length) (hj : j < l.length) :
    (lswap l i j).count b = l.count b := by
  unfold lswap
  rw [List.getElem?_eq_getElem hi, List.getElem?_eq_getElem hj]
  have hj' : j < (l.set i l[j]).length := by simpa using hj
  rw [List.count_set _ _ _ _ hj', List.count_set _ _ _ _ hi]
  have hgj : (l.set i l[j])[j] = l[j] := by
    rw [List.getElem_set]
    split <;> rfl
  rw [hgj]
  have h1 := List.boole_getElem_le_count b l i hi
  have h2 := List.boole_getElem_le_count b l j hj
  omega

theorem lswap_perm (l : List α) (i j : Nat)
    (hi : i < l.length) (hj : j < l.length) :
    (lswap l i j).Perm l := by
  letI : DecidableEq α := Classical.decEq α
  exact List.perm_iff_count.mpr fun b => count_lswap b l i j hi hj

/-! ## Derived comparator facts -/

theorem ValidComp.asymm {comp : α → α → Bool} (hv : ValidComp comp) {a b : α}
    (h : comp a b = true) : comp b a = false :=
  hv.1 a b h

theorem ValidComp.irrefl {comp : α → α → Bool} (hv : ValidComp comp) (a : α) :
    comp a a = false := by
  cases h : comp a a
  · rfl
  · have := hv.1 a a h
    rw [h] at this
    exact this

theorem ValidComp.trans_comp {comp : α → α → Bool} (hv : ValidComp comp)
    {a b c : α} (h1 : comp a b = true) (h2 : comp b c = true) :
    comp a c = true := by
  cases h3 : comp a c
  · have h4 := hv.2 b a c (hv.1 a b h1) h3
    rw [h4] at h2
    exact Bool.noConfusion h2
  · rfl

theorem bounds_of_optComp_true {comp : α → α → Bool} {l : List α} {p c : Nat}
    (h : optComp comp l[p]? l[c]? = true) : p < l.length ∧ c < l.length := by
  by_cases hp : p < l.length
  · by_cases hc : c < l.length
    · exact ⟨hp, hc⟩
    · rw [List.getElem?_eq_none (n := c) (by omega), optComp_none_right] at h
      exact Bool.noConfusion h
  · rw [List.getElem?_eq_none (n := p) (by omega), optComp_none_left] at h
    exact Bool.noConfusion h

theorem optComp_eq_comp {comp : α → α → Bool} {l : List α} {p c : Nat}
    (hp : p < l.length) (hc : c < l.length) :
    optComp comp l[p]? l[c]? = comp l[p] l[c] := by
  rw [List.getElem?_eq_getElem hp, List.getElem?_eq_getElem hc]
  rfl

/-! ## `siftUp` -/

theorem length_siftUp (comp : α → α → Bool) (l : List α) (i : Nat) :
    (siftUp comp l i).length = l.length := by
  induction l, i using siftUp.induct comp with
  | case1 l =>
    rw [siftUp, if_pos rfl]
  | case2 l i h0 hcond ih =>
    rw [siftUp, if_neg h0, if_pos hcond, ih, length_lswap]
  | case3 l i h0 hcond =>
    rw [siftUp, if_neg h0, if_neg hcond]

theorem siftUp_perm (comp : α → α → Bool) (l : List α) (i : Nat) :
    (siftUp comp l i).Perm l := by
  induction l, i using siftUp.induct comp with
  | case1 l =>
    rw [siftUp, if_pos rfl]
  | case2 l i h0 hcond ih =>
    rw [siftUp, if_neg h0, if_pos hcond]
    have hb := bounds_of_optComp_true hcond
    exact ih.trans (lswap_perm l i ((i - 1) / 2) hb.2 hb.1)
  | case3 l i h0 hcond =>
    rw [siftUp, if_neg h0, if_neg hcond]

theorem siftUp_zero (comp : α → α → Bool) (l : List α) :
    siftUp comp l 0 = l := by
  rw [siftUp, if_pos rfl]

theorem siftUp_stop {comp : α → α → Bool} {l : List α} {i : Nat}
    (h : optComp comp l[(i - 1) / 2]? l[i]? = false) :
    siftUp comp l i = l := by
  rw [siftUp]
  by_cases h0 : i = 0
  · rw [if_pos h0]
  · rw [if_neg h0, if_neg (by simp [h])]

theorem heap_prop_siftUp {comp : α → α → Bool} (hv : ValidComp comp)
    (l : List α) (i : Nat) (hpre : sift_up_pre comp l i) :
    heap_prop comp (siftUp comp l i) := by
  revert hpre
  induction l, i using siftUp.induct comp with
  | case1 l =>
    intro hpre
    rw [siftUp, if_pos rfl]
    intro j hj0
    exact hpre.1 j hj0 (by omega)
  | case2 l i h0 hcond ih =>
    intro hpre
    rw [siftUp, if_neg h0, if_pos hcond]
    have hb := bounds_of_optComp_true hcond
    have hb1 := hb.1
    have hb2 := hb.2
    have hcmp : comp l[(i - 1) / 2] l[i] = true := by
      rwa [optComp_eq_comp hb.1 hb.2] at hcond
    have hpi : (i - 1) / 2 < i := by omega
    have hg := getElem?_lswap (l := l) hb.2 hb.1
    refine ih ⟨?_, ?_⟩
    · -- all parent edges except the one into the new hole `(i-1)/2`
      intro j hj0 hjp
      unfold edge_ok
      by_cases hji : j = i
      · subst hji
        rw [hg, hg, if_pos rfl, if_neg (by omega), if_pos rfl,
          optComp_eq_comp hb.2 hb.1]
        exact hv.asymm hcmp
      · by_cases hqi : (j - 1) / 2 = i
        · rw [hqi, hg, hg, if_neg (by omega), if_pos rfl, if_neg hjp,
            if_neg hji]
          exact hpre.2 j hqi (by omega)
        · by_cases hqp : (j - 1) / 2 = (i - 1) / 2
          · rw [hqp, hg, hg, if_pos rfl, if_neg hjp, if_neg hji]
            by_cases hjn : j < l.length
            · rw [optComp_eq_comp hb.2 hjn]
              have hpj : comp l[(i - 1) / 2] l[j] = false := by
                have h1 := hpre.1 j hj0 hji
                unfold edge_ok at h1
                rwa [hqp, optComp_eq_comp hb.1 hjn] at h1
              cases hcase : comp l[i] l[j]
              · rfl
              · have h2 := hv.trans_comp hcmp hcase
                rw [hpj] at h2
                exact Bool.noConfusion h2
            · rw [List.getElem?_eq_none (n := j) (by omega), optComp_none_right]
          · rw [hg, hg, if_neg hqp, if_neg hqi, if_neg hjp, if_neg hji]
            exact hpre.1 j hj0 hji
    · -- children of the new hole are covered by its parent
      intro j hqj hp0
      unfold edge_ok
      have hgp : ((i - 1) / 2 - 1) / 2 < (i - 1) / 2 := by omega
      rw [hg (((i - 1) / 2 - 1) / 2), if_neg (by omega), if_neg (by omega)]
      by_cases hji : j = i
      · rw [hji, hg i, if_neg (by omega), if_pos rfl]
        exact hpre.1 ((i - 1) / 2) hp0 (by omega)
      · rw [hg, if_neg (by omega), if_neg hji]
        by_cases hjn : j < l.length
        · have hq2 : ((i - 1) / 2 - 1) / 2 < l.length := by omega
          have e1 : comp l[((i - 1) / 2 - 1) / 2] l[(i - 1) / 2] = false := by
            have h1 := hpre.1 ((i - 1) / 2) hp0 (by omega)
            unfold edge_ok at h1
            rwa [optComp_eq_comp (by omega) hb.1] at h1
          have e2 : comp l[(i - 1) / 2] l[j] = false := by
            have h2 := hpre.1 j (by omega) hji
            unfold edge_ok at h2
            rwa [hqj, optComp_eq_comp hb.1 hjn] at h2
          rw [optComp_eq_comp (by omega) hjn]
          exact hv.2 _ _ _ e1 e2
        · rw [List.getElem?_eq_none (n := j) (by omega), optComp_none_right]
  | case3 l i h0 hcond =>
    intro hpre
    rw [siftUp, if_neg h0, if_neg hcond]
    intro j hj0
    by_cases hji : j = i
    · subst hji
      unfold edge_ok
      simpa using hcond
    · exact hpre.1 j hj0 hji

/-! ## `heap_push` and `heapify` -/

theorem sift_up_pre_push {comp : α → α → Bool} (l : List α) (v : α)
    (hl : heap_prop comp l) : sift_up_pre comp (l ++ [v]) l.length := by
  constructor
  · intro j hj0 hjn
    unfold edge_ok
    by_cases hjl : j < l.length
    · rw [List.getElem?_append_left hjl, List.getElem?_append_left (by omega)]
      exact hl j hj0
    · rw [List.getElem?_eq_none (n := j) (by simp; omega), optComp_none_right]
  · intro j hqj hn0
    unfold edge_ok
    rw [List.getElem?_eq_none (n := j) (by simp; omega), optComp_none_right]

theorem heap_prop_heap_push {comp : α → α → Bool} (hv : ValidComp comp)
    (l : List α) (v : α) (hl : heap_prop comp l) :
    heap_prop comp (heap_push comp l v) :=
  heap_prop_siftUp hv _ _ (sift_up_pre_push l v hl)

theorem heap_push_perm (comp : α → α → Bool) (l : List α) (v : α) :
    (heap_push comp l v).Perm (v :: l) := by
  unfold heap_push
  exact (siftUp_perm comp (l ++ [v]) l.length).trans
    (List.perm_append_singleton v l)

theorem length_heap_push (comp : α → α → Bool) (l : List α) (v : α) :
    (heap_push comp l v).length = l.length + 1 :=
  (heap_push_perm comp l v).length_eq

theorem heap_prop_nil (comp : α → α → Bool) : heap_prop comp ([] : List α) := by
  intro j hj0
  unfold edge_ok
  rw [List.getElem?_eq_none (n := j) (by simp), optComp_none_right]

theorem heapify_append_singleton (comp : α → α → Bool) (l : List α) (x : α) :
    heapify comp (l ++ [x]) = heap_push comp (heapify comp l) x := by
  unfold heapify
  rw [List.foldl_append]
  rfl

theorem heap_prop_heapify {comp : α → α → Bool} (hv : ValidComp comp)
    (l : List α) : heap_prop comp (heapify comp l) := by
  induction l using List.reverseRecOn with
  | nil => exact heap_prop_nil comp
  | append_singleton l x ih =>
    rw [heapify_append_singleton]
    exact heap_prop_heap_push hv _ x ih

theorem heapify_perm (comp : α → α → Bool) (l : List α) :
    (heapify comp l).Perm l := by
  induction l using List.reverseRecOn with
  | nil => exact List.Perm.refl _
  | append_singleton l x ih =>
    rw [heapify_append_singleton]
    exact (heap_push_perm comp _ x).trans
      ((ih.cons x).trans (List.perm_append_singleton x l).symm)

theorem length_heapify (comp : α → α → Bool) (l : List α) :
    (heapify comp l).length = l.length :=
  (heapify_perm comp l).length_eq

/-! ## `pickChild` -/

theorem pickChild_or (comp : α → α → Bool) (l : List α) (i m : Nat) :
    pickChild comp l i m = 2 * i + 1 ∨ pickChild comp l i m = 2 * i + 2 := by
  unfold pickChild
  split
  · right; rfl
  · left; rfl

theorem pickChild_lt (comp : α → α → Bool) (l : List α) (i m : Nat)
    (h1 : 2 * i + 1 < m) : pickChild comp l i m < m := by
  unfold pickChild
  split
  next h =>
    rw [Bool.and_eq_true, decide_eq_true_iff] at h
    exact h.1
  next h => exact h1

theorem pickChild_parent (comp : α → α → Bool) (l : List α) (i m : Nat) :
    (pickChild comp l i m - 1) / 2 = i := by
  rcases pickChild_or comp l i m with h | h <;> rw [h] <;> omega

theorem pickChild_sib (comp : α → α → Bool) (l : List α) (i m : Nat)
    (h : pickChild comp l i m = 2 * i + 1) (h2 : 2 * i + 2 < m) :
    optComp comp l[2 * i + 1]? l[2 * i + 2]? = false := by
  unfold pickChild at h
  by_cases hc : (decide (2 * i + 2 < m) && optComp comp l[2 * i + 1]? l[2 * i + 2]?) = true
  · rw [if_pos hc] at h
    omega
  · rw [Bool.and_eq_true, decide_eq_true_iff] at hc
    cases hb : optComp comp l[2 * i + 1]? l[2 * i + 2]?
    · rfl
    · exact absurd ⟨h2, hb⟩ hc

theorem pickChild_top (comp : α → α → Bool) (l : List α) (i m : Nat)
    (h : pickChild comp l i m = 2 * i + 2) :
    optComp comp l[2 * i + 1]? l[2 * i + 2]? = true := by
  unfold pickChild at h
  by_cases hc : (decide (2 * i + 2 < m) && optComp comp l[2 * i + 1]? l[2 * i + 2]?) = true
  · rw [Bool.and_eq_true] at hc
    exact hc.2
  · rw [if_neg hc] at h
    omega

theorem pickChild_dominates {comp : α → α → Bool} (hv : ValidComp comp)
    {l : List α} {i m j : Nat} (hmn : m ≤ l.length) (h1 : 2 * i + 1 < m)
    (hqj : (j - 1) / 2 = i) (hj0 : 0 < j) (hjm : j < m)
    (hjc : j ≠ pickChild comp l i m) :
    optComp comp l[pickChild comp l i m]? l[j]? = false := by
  have hj12 : j = 2 * i + 1 ∨ j = 2 * i + 2 := by omega
  rcases pickChild_or comp l i m with hc | hc
  · have hj2 : j = 2 * i + 2 := by rw [hc] at hjc; omega
    rw [hc, hj2]
    exact pickChild_sib comp l i m hc (by omega)
  · have hj1 : j = 2 * i + 1 := by rw [hc] at hjc; omega
    have hcc := pickChild_top comp l i m hc
    have hc2m : 2 * i + 2 < m := by
      have h' := pickChild_lt comp l i m h1
      rw [hc] at h'
      exact h'
    rw [optComp_eq_comp (by omega) (by omega)] at hcc
    rw [hc, hj1, optComp_eq_comp (by omega) (by omega)]
    exact hv.asymm hcc

theorem stop_both {comp : α → α → Bool} (hv : ValidComp comp)
    {l : List α} {i m j : Nat} (hmn : m ≤ l.length) (h1 : 2 * i + 1 < m)
    (hstop : optComp comp l[i]? l[pickChild comp l i m]? = false)
    (hqj : (j - 1) / 2 = i) (hj0 : 0 < j) (hjm : j < m) :
    optComp comp l[i]? l[j]? = false := by
  by_cases hjc : j = pickChild comp l i m
  · rw [hjc]
    exact hstop
  · have hj12 : j = 2 * i + 1 ∨ j = 2 * i + 2 := by omega
    rcases pickChild_or comp l i m with hc | hc
    · have hj2 : j = 2 * i + 2 := by rw [hc] at hjc; omega
      have hsib := pickChild_sib comp l i m hc (by omega)
      rw [hc] at hstop
      rw [optComp_eq_comp (by omega) (by omega)] at hstop
      rw [optComp_eq_comp (by omega) (by omega)] at hsib
      rw [hj2, optComp_eq_comp (by omega) (by omega)]
      exact hv.2 _ _ _ hstop hsib
    · have hj1 : j = 2 * i + 1 := by rw [hc] at hjc; omega
      have hcc := pickChild_top comp l i m hc
      have hc2m : 2 * i + 2 < m := by
        have h' := pickChild_lt comp l i m h1
        rw [hc] at h'
        exact h'
      rw [hc] at hstop
      rw [optComp_eq_comp (by omega) (by omega)] at hstop
      rw [optComp_eq_comp (by omega) (by omega)] at hcc
      rw [hj1, optComp_eq_comp (by omega) (by omega)]
      have hin : i < l.length := by omega
      have hc1n : 2 * i + 1 < l.length := by omega
      cases hb : comp l[i] l[2 * i + 1]
      · rfl
      · have h2 := hv.trans_comp hb hcc
        rw [hstop] at h2
        exact Bool.noConfusion h2

/-! ## `siftDown` -/

theorem length_siftDown (comp : α → α → Bool) (l : List α) (i m : Nat) :
    (siftDown comp l i m).length = l.length := by
  induction l, i, m using siftDown.induct comp with
  | case1 l i m h1 hcond ih =>
    rw [siftDown, dif_pos h1, if_pos hcond, ih, length_lswap]
  | case2 l i m h1 hcond =>
    rw [siftDown, dif_pos h1, if_neg hcond]
  | case3 l i m h1 =>
    rw [siftDown, dif_neg h1]

theorem siftDown_perm (comp : α → α → Bool) (l : List α) (i m : Nat) :
    (siftDown comp l i m).Perm l := by
  induction l, i, m using siftDown.induct comp with
  | case1 l i m h1 hcond ih =>
    rw [siftDown, dif_pos h1, if_pos hcond]
    have hb := bounds_of_optComp_true hcond
    exact ih.trans (lswap_perm l i (pickChild comp l i m) hb.1 hb.2)
  | case2 l i m h1 hcond =>
    rw [siftDown, dif_pos h1, if_neg hcond]
  | case3 l i m h1 =>
    rw [siftDown, dif_neg h1]

theorem getElem?_siftDown_ge (comp : α → α → Bool) (l : List α) (i m k : Nat)
    (hk : m ≤ k) : (siftDown comp l i m)[k]? = l[k]? := by
  induction l, i, m using siftDown.induct comp with
  | case1 l i m h1 hcond ih =>
    rw [siftDown, dif_pos h1, if_pos hcond, ih hk]
    have hb := bounds_of_optComp_true hcond
    have hcm := pickChild_lt comp l i m h1
    rw [getElem?_lswap hb.1 hb.2 k, if_neg (by omega), if_neg (by omega)]
  | case2 l i m h1 hcond =>
    rw [siftDown, dif_pos h1, if_neg hcond]
  | case3 l i m h1 =>
    rw [siftDown, dif_neg h1]

theorem heap_upto_siftDown {comp : α → α → Bool} (hv : ValidComp comp)
    (l : List α) (i m : Nat) (hmn : m ≤ l.length)
    (hpre : sift_down_pre comp l i m) :
    heap_upto comp (siftDown comp l i m) m := by
  revert hmn hpre
  induction l, i, m using siftDown.induct comp with
  | case1 l i m h1 hcond ih =>
    intro hmn hpre
    rw [siftDown, dif_pos h1, if_pos hcond]
    have hb := bounds_of_optComp_true hcond
    have hcm := pickChild_lt comp l i m h1
    have hpar := pickChild_parent comp l i m
    have hcor := pickChild_or comp l i m
    have hg := getElem?_lswap (l := l) hb.1 hb.2
    refine ih (by rw [length_lswap]; exact hmn) ⟨?_, ?_⟩
    · intro j hj0 hjm hqc
      unfold edge_ok
      by_cases hjc : j = pickChild comp l i m
      · rw [hjc, hpar, hg, hg, if_neg (by omega), if_pos rfl, if_pos rfl,
          optComp_eq_comp hb.2 hb.1]
        rw [optComp_eq_comp hb.1 hb.2] at hcond
        exact hv.asymm hcond
      · by_cases hji : j = i
        · rw [hji, hg, hg, if_neg (by omega), if_neg (by omega),
            if_neg (by omega), if_pos rfl]
          exact hpre.2 (pickChild comp l i m) hcm hpar (by omega)
        · by_cases hqi : (j - 1) / 2 = i
          · rw [hqi, hg, hg, if_neg (by omega), if_pos rfl, if_neg hjc,
              if_neg hji]
            exact pickChild_dominates hv hmn h1 hqi hj0 hjm hjc
          · rw [hg, hg, if_neg hqc, if_neg hqi, if_neg hjc, if_neg hji]
            exact hpre.1 j hj0 hjm hqi
    · intro j hjm hqc hc0
      unfold edge_ok
      rw [hpar, hg, hg, if_neg (by omega), if_pos rfl, if_neg (by omega),
        if_neg (by omega)]
      have h2 := hpre.1 j (by omega) hjm (by rw [hqc]; omega)
      unfold edge_ok at h2
      rwa [hqc] at h2
  | case2 l i m h1 hcond =>
    intro hmn hpre
    rw [siftDown, dif_pos h1, if_neg hcond]
    intro j hj0 hjm
    by_cases hqi : (j - 1) / 2 = i
    · rw [hqi]
      exact stop_both hv hmn h1 (by simpa using hcond) hqi hj0 hjm
    · exact hpre.1 j hj0 hjm hqi
  | case3 l i m h1 =>
    intro hmn hpre
    rw [siftDown, dif_neg h1]
    intro j hj0 hjm
    by_cases hqi : (j - 1) / 2 = i
    · omega
    · exact hpre.1 j hj0 hjm hqi

/-! ## `heap_pop` -/

theorem heap_pop_inner_getElem (comp : α → α → Bool) (x : α) (xs : List α) :
    (siftDown comp (lswap (x :: xs) 0 xs.length) 0 xs.length)[xs.length]? =
      some x := by
  rw [getElem?_siftDown_ge comp _ 0 xs.length xs.length le_rfl,
    getElem?_lswap (l := x :: xs) (by simp) (by simp) xs.length, if_pos rfl]
  simp

theorem heap_pop_inner_length (comp : α → α → Bool) (x : α) (xs : List α) :
    (siftDown comp (lswap (x :: xs) 0 xs.length) 0 xs.length).length =
      xs.length + 1 := by
  rw [length_siftDown, length_lswap]
  rfl

theorem heap_pop_cons (comp : α → α → Bool) (x : α) (xs : List α) :
    heap_pop comp (x :: xs) =
      (.ok x,
        (siftDown comp (lswap (x :: xs) 0 xs.length) 0 xs.length).dropLast) := by
  have hlast :
      (siftDown comp (lswap (x :: xs) 0 xs.length) 0 xs.length).getLastD x =
        x := by
    rw [List.getLastD_eq_getLast?, List.getLast?_eq_getElem?,
      heap_pop_inner_length, Nat.add_sub_cancel, heap_pop_inner_getElem]
    rfl
  show (Except.ok
      ((siftDown comp (lswap (x :: xs) 0 xs.length) 0 xs.length).getLastD x),
    (siftDown comp (lswap (x :: xs) 0 xs.length) 0 xs.length).dropLast) = _
  rw [hlast]

theorem heap_pop_inner_eq (comp : α → α → Bool) (x : α) (xs : List α) :
    siftDown comp (lswap (x :: xs) 0 xs.length) 0 xs.length =
      (heap_pop comp (x :: xs)).2 ++ [x] := by
  rw [heap_pop_cons]
  have hne : siftDown comp (lswap (x :: xs) 0 xs.length) 0 xs.length ≠ [] := by
    intro h
    have := heap_pop_inner_length comp x xs
    rw [h] at this
    simp at this
  have h1 := List.getLast?_eq_getElem?
    (siftDown comp (lswap (x :: xs) 0 xs.length) 0 xs.length)
  rw [heap_pop_inner_length, Nat.add_sub_cancel, heap_pop_inner_getElem,
    List.getLast?_eq_getLast _ hne] at h1
  conv => lhs; rw [← List.dropLast_concat_getLast hne]
  rw [Option.some.inj h1]

theorem heap_pop_snd_perm (comp : α → α → Bool) (x : α) (xs : List α) :
    (x :: (heap_pop comp (x :: xs)).2).Perm (x :: xs) := by
  have h2 : ((heap_pop comp (x :: xs)).2 ++ [x]).Perm (x :: xs) := by
    rw [← heap_pop_inner_eq]
    exact (siftDown_perm comp _ 0 xs.length).trans
      (lswap_perm (x :: xs) 0 xs.length (by simp) (by simp))
  exact (List.perm_append_singleton x _).symm.trans h2

theorem length_heap_pop_snd (comp : α → α → Bool) (x : α) (xs : List α) :
    (heap_pop comp (x :: xs)).2.length = xs.length := by
  have := (heap_pop_snd_perm comp x xs).length_eq
  simpa using this

theorem heap_prop_heap_pop {comp : α → α → Bool} (hv : ValidComp comp)
    (x : α) (xs : List α) (hh : heap_prop comp (x :: xs)) :
    heap_prop comp (heap_pop comp (x :: xs)).2 := by
  have h0 : (0 : Nat) < (x :: xs).length := by simp
  have hmn : xs.length < (x :: xs).length := by simp
  have hg := getElem?_lswap (l := x :: xs) h0 hmn
  have hpre : sift_down_pre comp (lswap (x :: xs) 0 xs.length) 0 xs.length := by
    constructor
    · intro j hj0 hjm hq0
      unfold edge_ok
      rw [hg, hg, if_neg (by omega), if_neg (by omega), if_neg (by omega),
        if_neg (by omega)]
      exact hh j hj0
    · intro j hjm hqj hi0
      omega
  have hupto := heap_upto_siftDown hv (lswap (x :: xs) 0 xs.length) 0 xs.length
    (by rw [length_lswap]; simp) hpre
  intro j hj0
  unfold edge_ok
  rw [heap_pop_cons]
  by_cases hjm : j < xs.length
  · rw [List.getElem?_dropLast, List.getElem?_dropLast, heap_pop_inner_length,
      Nat.add_sub_cancel, if_pos (by omega), if_pos (by omega)]
    exact hupto j hj0 hjm
  · have hnone :
        ((siftDown comp (lswap (x :: xs) 0 xs.length) 0
            xs.length).dropLast)[j]? = none := by
      rw [List.getElem?_dropLast, heap_pop_inner_length, Nat.add_sub_cancel,
        if_neg (by omega)]
    rw [hnone, optComp_none_right]

/-! ## The root of a heap is maximal -/

theorem root_maximal {comp : α → α → Bool} (hv : ValidComp comp)
    {l : List α} (hh : heap_prop comp l) :
    ∀ j : Nat, optComp comp l[(0 : Nat)]? l[j]? = false := by
  intro j
  induction j using Nat.strong_induction_on with
  | _ j ih =>
    by_cases hj0 : j = 0
    · subst hj0
      by_cases h0 : 0 < l.length
      · rw [optComp_eq_comp h0 h0]
        exact hv.irrefl _
      · rw [List.getElem?_eq_none (n := 0) (by omega), optComp_none_left]
    · by_cases hjn : j < l.length
      · have h0 : 0 < l.length := by omega
        have hq := ih ((j - 1) / 2) (by omega)
        have he := hh j (by omega)
        unfold edge_ok at he
        rw [optComp_eq_comp h0 (by omega)] at hq
        rw [optComp_eq_comp (by omega) hjn] at he
        rw [optComp_eq_comp h0 hjn]
        exact hv.2 _ _ _ hq he
      · rw [List.getElem?_eq_none (n := j) (by omega), optComp_none_right]

theorem root_max_mem {comp : α → α → Bool} (hv : ValidComp comp)
    {x : α} {xs : List α} (hh : heap_prop comp (x :: xs)) :
    ∀ y ∈ x :: xs, comp x y = false := by
  intro y hy
  rcases List.mem_iff_getElem?.mp hy with ⟨j, hj⟩
  have h1 := root_maximal hv hh j
  have h0 : (x :: xs)[(0 : Nat)]? = some x := by simp
  rw [h0, hj] at h1
  exact h1

/-! ## `popLoop` -/

theorem popLoop_ok (comp : α → α → Bool) :
    ∀ (k : Nat) (l : List α), k ≤ l.length →
      ∃ out rest, popLoop comp k l = (.ok out, rest) ∧ out.length = k ∧
        rest.length = l.length - k ∧ (out ++ rest).Perm l := by
  intro k
  induction k with
  | zero =>
    intro l _
    exact ⟨[], l, rfl, rfl, by omega, List.Perm.refl _⟩
  | succ k ih =>
    intro l h
    cases l with
    | nil => simp at h
    | cons x xs =>
      obtain ⟨out, rest, hloop, hlen, hrl, hperm⟩ :=
        ih (heap_pop comp (x :: xs)).2
          (by rw [length_heap_pop_snd]; simpa using h)
      have hsnd : (heap_pop comp (x :: xs)).2 =
          (siftDown comp (lswap (x :: xs) 0 xs.length) 0 xs.length).dropLast := by
        rw [heap_pop_cons]
      refine ⟨x :: out, rest, ?_, by simp [hlen], ?_, ?_⟩
      · rw [hsnd] at hloop
        show popLoop comp (k + 1) (x :: xs) = (.ok (x :: out), rest)
        simp only [popLoop, heap_pop_cons, hloop]
      · rw [length_heap_pop_snd] at hrl
        simp only [List.length_cons]
        omega
      · exact ((hperm.cons x).trans (heap_pop_snd_perm comp x xs))

theorem popLoop_drain {comp : α → α → Bool} (hv : ValidComp comp) :
    ∀ (n : Nat) (l : List α), l.length = n → heap_prop comp l →
      ∃ out, popLoop comp n l = (.ok out, []) ∧ out.Perm l ∧
        out.Pairwise (fun a b => comp a b = false) := by
  intro n
  induction n with
  | zero =>
    intro l hn _
    have : l = [] := List.length_eq_zero.mp hn
    subst this
    exact ⟨[], rfl, List.Perm.refl _, List.Pairwise.nil⟩
  | succ n ih =>
    intro l hn hh
    cases l with
    | nil => simp at hn
    | cons x xs =>
      have hh' : heap_prop comp (heap_pop comp (x :: xs)).2 :=
        heap_prop_heap_pop hv x xs hh
      have hlen' : (heap_pop comp (x :: xs)).2.length = n := by
        rw [length_heap_pop_snd]
        simpa using hn
      obtain ⟨out, hloop, hperm, hpair⟩ := ih _ hlen' hh'
      have hsnd : (heap_pop comp (x :: xs)).2 =
          (siftDown comp (lswap (x :: xs) 0 xs.length) 0 xs.length).dropLast := by
        rw [heap_pop_cons]
      refine ⟨x :: out, ?_, ?_, ?_⟩
      · rw [hsnd] at hloop
        show popLoop comp (n + 1) (x :: xs) = (.ok (x :: out), [])
        simp only [popLoop, heap_pop_cons, hloop]
      · exact (hperm.cons x).trans (heap_pop_snd_perm comp x xs)
      · refine List.Pairwise.cons ?_ hpair
        intro y hy
        have hyl : y ∈ x :: xs :=
          (heap_pop_snd_perm comp x xs).subset (List.mem_cons_of_mem x
            (hperm.subset hy))
        exact root_max_mem hv hh y hyl

/-! ## `is_heap` agrees with `heap_prop`, and the standard comparators are
valid -/

theorem is_heap_iff {comp : α → α → Bool} {l : List α} :
    is_heap comp l = true ↔ heap_prop comp l := by
  unfold is_heap heap_prop
  rw [List.all_eq_true]
  constructor
  · intro h j hj0
    by_cases hjn : j < l.length
    · have h1 := h j (List.mem_range.mpr hjn)
      simp only [Bool.or_eq_true, beq_iff_eq, Bool.not_eq_true'] at h1
      unfold edge_ok
      rcases h1 with h1 | h1
      · omega
      · exact h1
    · unfold edge_ok
      rw [List.getElem?_eq_none (n := j) (by omega), optComp_none_right]
  · intro h j hj
    rw [List.mem_range] at hj
    by_cases hj0 : j = 0
    · simp [hj0]
    · have h1 := h j (by omega)
      unfold edge_ok at h1
      simp [h1]

theorem valid_ltc {β : Type} [LinearOrder β] : ValidComp (ltc (α := β)) := by
  constructor
  · intro a b h
    simp only [ltc, decide_eq_true_eq] at h
    simp only [ltc, decide_eq_false_iff_not]
    exact lt_asymm h
  · intro a b c h1 h2
    simp only [ltc, decide_eq_false_iff_not] at h1 h2 ⊢
    exact fun hac => absurd hac (not_lt.mpr ((not_lt.mp h2).trans (not_lt.mp h1)))

theorem valid_gtc {β : Type} [LinearOrder β] : ValidComp (gtc (α := β)) := by
  constructor
  · intro a b h
    simp only [gtc, decide_eq_true_eq] at h
    simp only [gtc, decide_eq_false_iff_not]
    exact lt_asymm h
  · intro a b c h1 h2
    simp only [gtc, decide_eq_false_iff_not] at h1 h2 ⊢
    exact fun hac => absurd hac (not_lt.mpr ((not_lt.mp h1).trans (not_lt.mp h2)))

theorem valid_pairComp : ValidComp pairComp := by
  constructor
  · intro a b h
    simp only [pairComp, decide_eq_true_eq] at h
    simp only [pairComp, decide_eq_false_iff_not]
    exact lt_asymm h
  · intro a b c h1 h2
    simp only [pairComp, decide_eq_false_iff_not] at h1 h2 ⊢
    exact fun hac => absurd hac (not_lt.mpr ((not_lt.mp h2).trans (not_lt.mp h1)))

/-! ## Characterizing `top_k` -/

theorem top_k_pos (comp : α → α → Bool) (data : List α) (k : Nat)
    (hk : k ≠ 0) (hd : data ≠ []) :
    top_k comp data k =
      (popLoop comp (min k data.length) (heapify comp data)).1 := by
  unfold top_k
  rw [if_neg (by simp [hk, hd])]
  show (popLoop comp
      (if k > (heapify comp data).length then (heapify comp data).length else k)
      (heapify comp data)).1 = _
  rw [length_heapify]
  by_cases h : data.length < k
  · rw [if_pos h, Nat.min_def, if_neg (by omega)]
  · rw [if_neg h, Nat.min_def, if_pos (by omega)]

theorem top_k_ok (comp : α → α → Bool) (data : List α) (k : Nat) :
    ∃ out : List α, top_k comp data k = .ok out := by
  by_cases h0 : k = 0 ∨ data = []
  · refine ⟨[], ?_⟩
    unfold top_k
    rcases h0 with h0 | h0 <;> rw [if_pos (by simp [h0])]
  · push_neg at h0
    obtain ⟨out, rest, hloop, _, _, _⟩ := popLoop_ok comp (min k data.length)
      (heapify comp data) (by rw [length_heapify]; omega)
    refine ⟨out, ?_⟩
    rw [top_k_pos comp data k h0.1 h0.2, hloop]

/-! ## Composing pop loops, and pop loops over linear orders -/

theorem popLoop_succ (comp : α → α → Bool) (k : Nat) (x : α) (xs : List α) :
    popLoop comp (k + 1) (x :: xs) =
      match popLoop comp k (heap_pop comp (x :: xs)).2 with
      | (.error e, l2) => (.error e, l2)
      | (.ok out, l2) => (.ok (x :: out), l2) := by
  have hsnd : (heap_pop comp (x :: xs)).2 =
      (siftDown comp (lswap (x :: xs) 0 xs.length) 0 xs.length).dropLast := by
    rw [heap_pop_cons]
  rw [hsnd]
  show ((match heap_pop comp (x :: xs) with
    | (Except.error e, l1) => ((Except.error e : Except String (List α)), l1)
    | (Except.ok y, l1) =>
      match popLoop comp k l1 with
      | (Except.error e, l2) => (Except.error e, l2)
      | (Except.ok out, l2) => (Except.ok (y :: out), l2)) :
        Except String (List α) × List α) = _
  rw [heap_pop_cons]

theorem popLoop_split (comp : α → α → Bool) :
    ∀ (k1 k2 : Nat) (l out1 rest1 out2 rest2 : List α),
      popLoop comp k1 l = (.ok out1, rest1) →
      popLoop comp k2 rest1 = (.ok out2, rest2) →
      popLoop comp (k1 + k2) l = (.ok (out1 ++ out2), rest2) := by
  intro k1
  induction k1 with
  | zero =>
    intro k2 l out1 rest1 out2 rest2 h1 h2
    simp only [popLoop] at h1
    injection h1 with h1a h1b
    injection h1a with h1a
    subst h1a
    subst h1b
    simpa using h2
  | succ k1 ih =>
    intro k2 l out1 rest1 out2 rest2 h1 h2
    cases l with
    | nil =>
      unfold popLoop heap_pop at h1
      injection h1 with h1a _
      exact Except.noConfusion h1a
    | cons x xs =>
      rw [popLoop_succ] at h1
      rcases hres : popLoop comp k1 (heap_pop comp (x :: xs)).2 with ⟨res, l2⟩
      rw [hres] at h1
      cases res with
      | error e =>
        injection h1 with h1a _
        exact Except.noConfusion h1a
      | ok out' =>
        injection h1 with h1a h1b
        have h1a' : out1 = x :: out' := (Except.ok.inj h1a).symm
        subst h1a'
        subst h1b
        have hadd : k1 + 1 + k2 = (k1 + k2) + 1 := by omega
        rw [hadd, popLoop_succ, ih k2 _ out' l2 out2 rest2 hres h2]
        rfl

theorem popLoop_take (comp : α → α → Bool) (k : Nat) (l : List α)
    (s : List α) (hs : popLoop comp l.length l = (.ok s, [])) (hk : k ≤ l.length) :
    ∃ rest, popLoop comp k l = (.ok (s.take k), rest) := by
  obtain ⟨out1, rest1, h1, hlen1, hr1, _⟩ := popLoop_ok comp k l hk
  obtain ⟨out2, rest2, h2, _, _, _⟩ :=
    popLoop_ok comp (l.length - k) rest1 (by omega)
  have hsplit := popLoop_split comp k (l.length - k) l out1 rest1 out2 rest2 h1 h2
  rw [Nat.add_sub_cancel' hk] at hsplit
  rw [hsplit] at hs
  injection hs with hsa _
  have hout : out1 ++ out2 = s := Except.ok.inj hsa
  have : out1 = s.take k := by
    rw [← hout, List.take_left' hlen1]
  rw [← this]
  exact ⟨rest1, h1⟩

theorem top_k_eq_take (comp : α → α → Bool) (data : List α) (s : List α)
    (hs : popLoop comp data.length (heapify comp data) = (.ok s, []))
    (k : Nat) : top_k comp data k = .ok (s.take k) := by
  have hslen : s.length = data.length := by
    obtain ⟨out, rest, h1, hlen, _, _⟩ := popLoop_ok comp data.length
      (heapify comp data) (by rw [length_heapify])
    rw [h1] at hs
    injection hs with hsa _
    rw [← Except.ok.inj hsa, hlen]
  by_cases h0 : k = 0
  · subst h0
    unfold top_k
    rw [if_pos (by simp)]
    rfl
  by_cases hd : data = []
  · subst hd
    unfold top_k
    rw [if_pos (by simp)]
    have hnil : s = [] := List.length_eq_zero.mp (by simpa using hslen)
    rw [hnil]
    simp
  · rw [top_k_pos comp data k h0 hd]
    have hlh : (heapify comp data).length = data.length := length_heapify comp data
    obtain ⟨rest, hloop⟩ := popLoop_take comp (min k data.length)
      (heapify comp data) s (by rw [hlh]; exact hs) (by rw [hlh]; omega)
    rw [hloop]
    by_cases hkn : k ≤ data.length
    · rw [min_eq_left hkn]
    · rw [min_eq_right (by omega), List.take_of_length_le (by omega),
        List.take_of_length_le (by omega)]

theorem drain_ltc {β : Type} [LinearOrder β] (l : List β) :
    popLoop ltc l.length (heapify ltc l) = (.ok (ref_sort_desc l), []) := by
  obtain ⟨s, hloop, hperm, hpair⟩ := popLoop_drain valid_ltc l.length
    (heapify ltc l) (length_heapify ltc l) (heap_prop_heapify valid_ltc l)
  rw [hloop]
  have hs : s = ref_sort_desc l := by
    haveI : IsTotal β (fun a b : β => b ≤ a) := ⟨fun a b => le_total b a⟩
    haveI : IsTrans β (fun a b : β => b ≤ a) := ⟨fun a b c h1 h2 => le_trans h2 h1⟩
    haveI : IsAntisymm β (fun a b : β => b ≤ a) := ⟨fun a b h1 h2 => le_antisymm h2 h1⟩
    refine List.eq_of_perm_of_sorted (r := fun a b : β => b ≤ a) ?_ ?_ ?_
    · exact (hperm.trans (heapify_perm ltc l)).trans
        (List.perm_insertionSort _ l).symm
    · refine hpair.imp ?_
      intro a b h
      simp only [ltc, decide_eq_false_iff_not] at h
      exact not_lt.mp h
    · exact List.sorted_insertionSort _ l
  rw [hs]

theorem drain_gtc {β : Type} [LinearOrder β] (l : List β) :
    popLoop gtc l.length (heapify gtc l) = (.ok (ref_sort_asc l), []) := by
  obtain ⟨s, hloop, hperm, hpair⟩ := popLoop_drain valid_gtc l.length
    (heapify gtc l) (length_heapify gtc l) (heap_prop_heapify valid_gtc l)
  rw [hloop]
  have hs : s = ref_sort_asc l := by
    haveI : IsTotal β (fun a b : β => a ≤ b) := ⟨fun a b => le_total a b⟩
    haveI : IsTrans β (fun a b : β => a ≤ b) := ⟨fun a b c h1 h2 => le_trans h1 h2⟩
    haveI : IsAntisymm β (fun a b : β => a ≤ b) := ⟨fun a b h1 h2 => le_antisymm h1 h2⟩
    refine List.eq_of_perm_of_sorted (r := fun a b : β => a ≤ b) ?_ ?_ ?_
    · exact (hperm.trans (heapify_perm gtc l)).trans
        (List.perm_insertionSort _ l).symm
    · refine hpair.imp ?_
      intro a b h
      simp only [gtc, decide_eq_false_iff_not] at h
      exact not_lt.mp h
    · exact List.sorted_insertionSort _ l
  rw [hs]

theorem ref_sort_asc_eq_reverse {β : Type} [LinearOrder β] (l : List β) :
    ref_sort_asc l = (ref_sort_desc l).reverse := by
  haveI : IsAntisymm β (fun a b : β => a ≤ b) := ⟨fun a b h1 h2 => le_antisymm h1 h2⟩
  refine List.eq_of_perm_of_sorted (r := fun a b : β => a ≤ b) ?_ ?_ ?_
  · exact (List.perm_insertionSort _ l).trans
      ((List.reverse_perm _).trans (List.perm_insertionSort _ l)).symm
  · haveI : IsTotal β (fun a b : β => a ≤ b) := ⟨fun a b => le_total a b⟩
    haveI : IsTrans β (fun a b : β => a ≤ b) := ⟨fun a b c h1 h2 => le_trans h1 h2⟩
    exact List.sorted_insertionSort _ l
  · haveI : IsTotal β (fun a b : β => b ≤ a) := ⟨fun a b => le_total b a⟩
    haveI : IsTrans β (fun a b : β => b ≤ a) := ⟨fun a b c h1 h2 => le_trans h2 h1⟩
    exact List.pairwise_reverse.mpr (List.sorted_insertionSort _ l)

/-! ## Claims -/

/-- C1: for every multiset and every valid comparator, heapifying and then
popping until the sequence is empty emits the elements sorted best-to-worst
under the comparator and is a permutation of the input (hence equals a
reference full sort of the original multiset up to the order of ties); over a
linear order with the default comparator it equals the reference descending
sort exactly; in particular draining heapify `{3,1,4,1,5,9,2}` with the
default comparator yields `9,5,4,3,2,1,1` and ends with the empty
sequence. -/
theorem claim_C1_full_drain :
    (∀ (γ : Type) (comp : γ → γ → Bool), ValidComp comp → ∀ l : List γ,
      ∃ s, popLoop comp l.length (heapify comp l) = (.ok s, []) ∧
        s.Perm l ∧ s.Pairwise (fun a b => comp a b = false)) ∧
    (∀ (β : Type) [LinearOrder β] (l : List β),
      popLoop ltc l.length (heapify ltc l) = (.ok (ref_sort_desc l), [])) ∧
    popLoop ltc 7 (heapify ltc ([3, 1, 4, 1, 5, 9, 2] : List Int)) =
      (.ok [9, 5, 4, 3, 2, 1, 1], []) := by
  refine ⟨?_, ?_, ?_⟩
  · intro γ comp hv l
    obtain ⟨s, hloop, hperm, hpair⟩ := popLoop_drain hv l.length
      (heapify comp l) (length_heapify comp l) (heap_prop_heapify hv l)
    exact ⟨s, hloop, hperm.trans (heapify_perm comp l), hpair⟩
  · intro β _inst l
    exact drain_ltc l
  · have h := drain_ltc ([3, 1, 4, 1, 5, 9, 2] : List Int)
    rw [show ([3, 1, 4, 1, 5, 9, 2] : List Int).length = 7 from rfl] at h
    rw [h, show ref_sort_desc ([3, 1, 4, 1, 5, 9, 2] : List Int) =
      [9, 5, 4, 3, 2, 1, 1] by decide]

/-- Witness for C1 at the comparator `std::less<>` on `Int` and the
specification's example input. -/
theorem claim_C1_full_drain_witness :
    ∃ s : List Int, popLoop ltc ([3, 1, 4, 1, 5, 9, 2] : List Int).length
        (heapify ltc [3, 1, 4, 1, 5, 9, 2]) = (.ok s, []) ∧
      s.Perm [3, 1, 4, 1, 5, 9, 2] ∧
      s.Pairwise (fun a b => ltc a b = false) :=
  claim_C1_full_drain.1 Int ltc valid_ltc [3, 1, 4, 1, 5, 9, 2]

/-- C2: `top_k` returns an empty sequence (not an error) when `k == 0` or the
input is empty; otherwise it returns exactly `min(k, n)` elements, namely the
ones extracted by `min(k, n)` consecutive pops from a heap heapified over a
copy of the whole input, in that pop order. -/
theorem claim_C2_top_k_contract :
    ∀ (γ : Type) (comp : γ → γ → Bool) (data : List γ) (k : Nat),
      ((k = 0 ∨ data = []) → top_k comp data k = .ok []) ∧
      (k ≠ 0 → data ≠ [] → ∃ out rest,
        popLoop comp (min k data.length) (heapify comp data) =
          (.ok out, rest) ∧
        top_k comp data k = .ok out ∧ out.length = min k data.length) := by
  intro γ comp data k
  constructor
  · intro h0
    unfold top_k
    rcases h0 with h0 | h0 <;> rw [if_pos (by simp [h0])]
  · intro hk hd
    obtain ⟨out, rest, hloop, hlen, _, _⟩ := popLoop_ok comp
      (min k data.length) (heapify comp data) (by rw [length_heapify]; omega)
    exact ⟨out, rest, hloop, by rw [top_k_pos comp data k hk hd, hloop], hlen⟩

/-- Witness for C2 at `std::less<>` on `Int`, `data = [3,1,2]`, `k = 0` and
`k = 2`. -/
theorem claim_C2_top_k_contract_witness :
    top_k ltc ([3, 1, 2] : List Int) 0 = .ok [] ∧
    (∃ out rest,
      popLoop ltc (min 2 ([3, 1, 2] : List Int).length)
        (heapify ltc [3, 1, 2]) = (.ok out, rest) ∧
      top_k ltc ([3, 1, 2] : List Int) 2 = .ok out ∧
      out.length = min 2 ([3, 1, 2] : List Int).length) :=
  ⟨(claim_C2_top_k_contract Int ltc [3, 1, 2] 0).1 (Or.inl rfl),
   (claim_C2_top_k_contract Int ltc [3, 1, 2] 2).2 (by decide) (by decide)⟩

/-- C3 counterexample: the claim omits the heap-invariant precondition for
`heap_push`.  With the valid default comparator, pushing `0` onto the
sequence `[1, 2]` — which is not a heap — leaves `[1, 2, 0]`, and `is_heap`
is false on the result, so "after heap_push, is_heap holds" fails for a
sequence that was not a heap before the push. -/
theorem claim_C3_counterexample :
    ValidComp (ltc (α := Int)) ∧
    heap_push ltc ([1, 2] : List Int) 0 = [1, 2, 0] ∧
    is_heap ltc ([1, 2, 0] : List Int) = false := by
  refine ⟨valid_ltc, ?_, by decide⟩
  unfold heap_push
  rw [siftUp]
  norm_num [optComp, ltc]

/-- C3 (amended): for every valid comparator, `is_heap` holds after `heapify`
of any sequence, after `heap_push` on a sequence that satisfies the heap
invariant, and after `heap_pop` on a non-empty sequence that satisfies the
heap invariant. -/
theorem claim_C3_invariants :
    ∀ (γ : Type) (comp : γ → γ → Bool), ValidComp comp →
      (∀ l : List γ, is_heap comp (heapify comp l) = true) ∧
      (∀ (l : List γ) (v : γ), is_heap comp l = true →
        is_heap comp (heap_push comp l v) = true) ∧
      (∀ (x : γ) (xs : List γ), is_heap comp (x :: xs) = true →
        is_heap comp (heap_pop comp (x :: xs)).2 = true) := by
  intro γ comp hv
  refine ⟨?_, ?_, ?_⟩
  · intro l
    exact is_heap_iff.mpr (heap_prop_heapify hv l)
  · intro l v hl
    exact is_heap_iff.mpr (heap_prop_heap_push hv l v (is_heap_iff.mp hl))
  · intro x xs hl
    exact is_heap_iff.mpr (heap_prop_heap_pop hv x xs (is_heap_iff.mp hl))

/-- Witness for the amended C3 at `std::less<>` on `Int` with the heap
`[3, 1, 2]`. -/
theorem claim_C3_invariants_witness :
    is_heap ltc (heapify ltc ([3, 1, 2] : List Int)) = true ∧
    is_heap ltc (heap_push ltc ([3, 1, 2] : List Int) 5) = true ∧
    is_heap ltc (heap_pop ltc ([3, 1, 2] : List Int)).2 = true :=
  ⟨(claim_C3_invariants Int ltc valid_ltc).1 [3, 1, 2],
   (claim_C3_invariants Int ltc valid_ltc).2.1 [3, 1, 2] 5 (by decide),
   (claim_C3_invariants Int ltc valid_ltc).2.2 3 [1, 2] (by decide)⟩

/-- C4: `heap_top` and `heap_pop` on a zero-element sequence each signal the
empty-structure error, and the sequence is left unchanged (the emptiness
check precedes any swap or removal, so the failure path performs no
mutation). -/
theorem claim_C4_empty_errors :
    ∀ (γ : Type) (comp : γ → γ → Bool),
      heap_top ([] : List γ) =
        .error "heap_utils: heap_top() on empty heap" ∧
      heap_pop comp ([] : List γ) =
        (.error "heap_utils: heap_pop() on empty heap", ([] : List γ)) :=
  fun _ _ => ⟨rfl, rfl⟩

/-- C5: every operation other than `heap_top`/`heap_pop` is total and never
signals an error: `heapify`, `heap_push` and `is_heap` are plain functions in
this model, and `top_k` (hence `largest_k` and `smallest_k`) always returns
`ok` — in particular the empty-heap error branch inside `heap_pop` is never
reached on the calls `top_k` makes. -/
theorem claim_C5_totality :
    (∀ (γ : Type) (comp : γ → γ → Bool) (data : List γ) (k : Nat),
      ∃ out, top_k comp data k = .ok out) ∧
    (∀ (β : Type) [LinearOrder β] (data : List β) (k : Nat),
      (∃ out, largest_k data k = .ok out) ∧
      ∃ out, smallest_k data k = .ok out) := by
  constructor
  · intro γ comp data k
    exact top_k_ok comp data k
  · intro β _inst data k
    exact ⟨top_k_ok ltc data k, top_k_ok gtc data k⟩

/-- C6: `largest_k` is `top_k` with the natural `std::less<>` comparator and
`smallest_k` is `top_k` with the inverted `std::greater<>` comparator — both
definitionally, with no further logic — and the specification's examples
evaluate as stated. -/
theorem claim_C6_convenience :
    (∀ (β : Type) [LinearOrder β] (data : List β) (k : Nat),
      largest_k data k = top_k ltc data k ∧
      smallest_k data k = top_k gtc data k) ∧
    largest_k ([7, 1, 9, 2, 8, 3, 6, 4, 5] : List Int) 3 = .ok [9, 8, 7] ∧
    smallest_k ([7, 1, 9, 2, 8, 3, 6, 4, 5] : List Int) 4 = .ok [1, 2, 3, 4] := by
  refine ⟨fun β _inst data k => ⟨rfl, rfl⟩, ?_, ?_⟩
  · rw [show largest_k ([7, 1, 9, 2, 8, 3, 6, 4, 5] : List Int) 3 =
      top_k ltc [7, 1, 9, 2, 8, 3, 6, 4, 5] 3 from rfl,
      top_k_eq_take ltc _ _ (drain_ltc _) 3,
      show (ref_sort_desc ([7, 1, 9, 2, 8, 3, 6, 4, 5] : List Int)).take 3 =
        [9, 8, 7] by decide]
  · rw [show smallest_k ([7, 1, 9, 2, 8, 3, 6, 4, 5] : List Int) 4 =
      top_k gtc [7, 1, 9, 2, 8, 3, 6, 4, 5] 4 from rfl,
      top_k_eq_take gtc _ _ (drain_gtc _) 4,
      show (ref_sort_asc ([7, 1, 9, 2, 8, 3, 6, 4, 5] : List Int)).take 4 =
        [1, 2, 3, 4] by decide]

/-- C7: for any fixed input multiset over a linear order, heapifying with the
inverted comparator and popping until empty yields exactly the reverse of the
pop sequence produced with the natural comparator. -/
theorem claim_C7_inversion :
    ∀ (β : Type) [LinearOrder β] (l : List β),
      ∃ s, popLoop ltc l.length (heapify ltc l) = (.ok s, []) ∧
        popLoop gtc l.length (heapify gtc l) = (.ok s.reverse, []) := by
  intro β _inst l
  refine ⟨ref_sort_desc l, drain_ltc l, ?_⟩
  rw [drain_gtc l, ref_sort_asc_eq_reverse]

/-- C8 counterexample: the claim demands positional idempotence — "the
second call leaves every element in the position the first call left it" —
for every sequence and every valid comparator.  `heapify` is
`std::make_heap`, whose contract fixes only a heap permutation, and the
mainstream libstdc++ implementation (`gcc_make_heap`) moves
tied-but-distinguishable elements: under the valid comparator `pairComp`
that compares only first components, the first call on
`[(2,1), (2,2), (1,0)]` yields `[(2,2), (2,1), (1,0)]`, and the second call
on that result swaps the tied pair back — the second call does not leave
every element in place. -/
theorem claim_C8_counterexample :
    ValidComp pairComp ∧
    gcc_make_heap pairComp
        [((2 : Int), (1 : Int)), ((2 : Int), (2 : Int)), ((1 : Int), (0 : Int))] =
      [(2, 2), (2, 1), (1, 0)] ∧
    is_heap pairComp
        ([((2 : Int), (2 : Int)), ((2 : Int), (1 : Int)), ((1 : Int), (0 : Int))]) =
      true ∧
    gcc_make_heap pairComp
        (gcc_make_heap pairComp
          [((2 : Int), (1 : Int)), ((2 : Int), (2 : Int)), ((1 : Int), (0 : Int))]) ≠
      gcc_make_heap pairComp
        [((2 : Int), (1 : Int)), ((2 : Int), (2 : Int)), ((1 : Int), (0 : Int))] :=
  ⟨valid_pairComp, by decide, by decide, by decide⟩

/-- C8 (amended): for every sequence and every valid comparator, a second
`heapify` immediately after a first call with the same comparator makes no
observable difference to the contract: the first call leaves `is_heap` true,
the second call leaves `is_heap` true, and the second call preserves the
contents as a multiset.  (Positional stability of the second call is not
guaranteed by `std::make_heap` and is disclaimed by the specification's own
tie caveat.) -/
theorem claim_C8_idempotent :
    ∀ (γ : Type) (comp : γ → γ → Bool), ValidComp comp → ∀ l : List γ,
      is_heap comp (heapify comp l) = true ∧
      is_heap comp (heapify comp (heapify comp l)) = true ∧
      (heapify comp (heapify comp l)).Perm (heapify comp l) := by
  intro γ comp hv l
  exact ⟨is_heap_iff.mpr (heap_prop_heapify hv l),
    is_heap_iff.mpr (heap_prop_heapify hv _),
    heapify_perm comp _⟩

/-- Witness for the amended C8 at `std::less<>` on `Int` and the example
input. -/
theorem claim_C8_idempotent_witness :
    is_heap ltc (heapify ltc ([3, 1, 4, 1, 5, 9, 2] : List Int)) = true ∧
    is_heap ltc (heapify ltc (heapify ltc ([3, 1, 4, 1, 5, 9, 2] : List Int))) =
      true ∧
    (heapify ltc (heapify ltc ([3, 1, 4, 1, 5, 9, 2] : List Int))).Perm
      (heapify ltc [3, 1, 4, 1, 5, 9, 2]) :=
  claim_C8_idempotent Int ltc valid_ltc [3, 1, 4, 1, 5, 9, 2]

/-- C9: `top_k` (and hence `largest_k`/`smallest_k`) never mutates the
caller's collection: the parameter is received by value, so the call works
on an independent copy and the caller's collection after the call is
unchanged, while the result is exactly the pure `top_k` of its contents. -/
theorem claim_C9_no_mutation :
    ∀ (γ : Type) (comp : γ → γ → Bool) (caller : List γ) (k : Nat),
      (top_k_call comp caller k).2 = caller ∧
      (top_k_call comp caller k).1 = top_k comp caller k :=
  fun _ _ _ _ => ⟨rfl, rfl⟩

/-- C10: `heap_top` validates nothing and takes no comparator: on every
non-empty sequence — including one that is not a heap, such as `[1, 2, 3]`
under the default comparator — it succeeds and returns the element at
index 0. -/
theorem claim_C10_top_no_validation :
    (∀ (γ : Type) (x : γ) (xs : List γ), heap_top (x :: xs) = .ok x) ∧
    is_heap ltc ([1, 2, 3] : List Int) = false ∧
    heap_top ([1, 2, 3] : List Int) = .ok 1 :=
  ⟨fun _ _ _ => rfl, by decide, rfl⟩

end heap_utils
